import Mathlib

/-!
Verification of the pixel-array transform engine of
`mathics/builtin/image/basic.py`: automatic level adjustment
(`ImageAdjust.eval_auto`), parametric contrast/brightness/gamma adjustment
(`ImageAdjust.eval_contrast_brightness_gamma`), image tiling
(`ImagePartition.eval`) and the blur/sharpen dispatch (`Blur`, `Sharpen`).

Pixel samples are modelled as rationals.  Pixel arrays are modelled
uniformly as `height × width × channels` nested lists (the source keeps a
possibly missing channel axis via numpy broadcasting; the spec's design
notes ask for the uniform channel axis).  External collaborators that are
not part of the source fragment (PIL enhancement primitives, the
convolution operator, the PIL round-trip) are modelled from the spec,
marked as such in their doc comments.
-/

/-- A pixel: the list of channel samples. -/
abbrev Pixel := List ℚ

/-- The pixel buffer of the source `Image` class: a dense
`height × width × channels` array of samples plus the color-space tag that
transforms carry through unchanged. -/
structure Image where
  pixels : List (List Pixel)
  color_space : String
deriving DecidableEq, Repr

/-- `shape[0]` of the numpy pixel array. -/
def Image.height (img : Image) : Nat := img.pixels.length

/-- `shape[1]` of the numpy pixel array (the length of the first row;
rows of a dense array all share it). -/
def Image.width (img : Image) : Nat := (img.pixels.headD []).length

/-- `shape[2]` of the numpy pixel array: the channel count, read off the
first pixel. -/
def Image.channels (img : Image) : Nat :=
  ((img.pixels.headD []).headD []).length

/-- Well-formedness of a pixel buffer: positive height, width and channel
count, all rows of equal width and all pixels with the same channel
count — the dense-array invariant of the spec's data model. -/
def Image.WF (img : Image) : Prop :=
  0 < img.height ∧ 0 < img.width ∧ 0 < img.channels ∧
    (∀ row ∈ img.pixels, row.length = img.width) ∧
    (∀ row ∈ img.pixels, ∀ px ∈ row, px.length = img.channels)

instance (img : Image) : Decidable img.WF := by
  unfold Image.WF; infer_instance

/-- The numpy slice `pixels[r0:r1, c0:c1]` (with nonnegative bounds), as
used by `ImagePartition.eval` to cut one tile. -/
def sliceIm (pixels : List (List Pixel)) (r0 r1 c0 c1 : Nat) :
    List (List Pixel) :=
  ((pixels.drop r0).take (r1 - r0)).map fun row => (row.drop c0).take (c1 - c0)

/-- The tile-collection loop of `ImagePartition.eval`: walks the
`shape[0] // py_h` times `shape[1] // py_w` grid, slicing tile
`(yi, xi)` out of the source pixels; a row is appended only if it is
nonempty (`if row:`). -/
def ImagePartition_grid (img : Image) (py_w py_h : Nat) :
    List (List Image) :=
  ((List.range (img.pixels.length / py_h)).map fun yi =>
    (List.range ((img.pixels.headD []).length / py_w)).map fun xi =>
      Image.mk
        (sliceIm img.pixels (yi * py_h) ((yi + 1) * py_h)
          (xi * py_w) ((xi + 1) * py_w))
        img.color_space).filter fun row => !row.isEmpty

/-- `ImagePartition.eval`: validates the size spec, then collects the grid
of tiles.  A validation failure is `evaluation.message("ImagePartition",
"arg2", ListExpression(w, h))`, modelled as an error value carrying the
message tag and the offending pair. -/
def ImagePartition_eval (img : Image) (w h : Int) :
    Except (String × Int × Int) (List (List Image)) :=
  if w ≤ 0 ∨ h ≤ 0 then
    .error ("arg2", w, h)
  else
    .ok (ImagePartition_grid img w.toNat h.toNat)

/-- The rewrite rule `ImagePartition[i_Image, s_Integer] :=
ImagePartition[i, {s, s}]`. -/
def ImagePartition_rule_square (img : Image) (s : Int) :
    Except (String × Int × Int) (List (List Image)) :=
  ImagePartition_eval img s s

/-- Pixel access `pixels[r][c]` with an out-of-range default, used to state
which source pixel a tile pixel comes from. -/
def pixAt (img : Image) (r c : Nat) : Pixel :=
  (img.pixels.getD r []).getD c []

/-- C3: `ImagePartition.eval` reports the `arg2` (invalid size spec) error
exactly when `w ≤ 0 ∨ h ≤ 0`, the error carries the offending pair
`(w, h)`, and on valid sizes the call succeeds with a grid. -/
theorem imagePartition_invalid_size_iff (img : Image) (w h : Int) :
    (ImagePartition_eval img w h = .error ("arg2", w, h) ↔ w ≤ 0 ∨ h ≤ 0) ∧
      (0 < w → 0 < h → ∃ grid, ImagePartition_eval img w h = .ok grid) := by
  constructor
  · constructor
    · intro hcall
      by_contra hc
      rw [ImagePartition_eval, if_neg hc] at hcall
      simp at hcall
    · intro hc
      rw [ImagePartition_eval, if_pos hc]
  · intro hw hh
    exact ⟨ImagePartition_grid img w.toNat h.toNat,
      by rw [ImagePartition_eval, if_neg (by push_neg; exact ⟨hw, hh⟩)]⟩

/-- C3 witness: the spec's own example `partition(buffer, 0, 300)` on a
concrete one-pixel buffer reports the error with the pair `(0, 300)`. -/
theorem imagePartition_invalid_size_iff_witness :
    ImagePartition_eval (Image.mk [[[0]]] "RGB") 0 300 =
      .error ("arg2", 0, 300) :=
  (imagePartition_invalid_size_iff (Image.mk [[[0]]] "RGB") 0 300).1.2
    (Or.inl le_rfl)

/-- C10: for positive tile sizes the returned grid never contains an empty
row-sequence, and whenever `cols = width // tileWidth = 0` the whole grid
is empty, regardless of how many full tile-rows would fit vertically. -/
theorem imagePartition_no_empty_rows (img : Image) (w h : Int)
    (hw : 0 < w) (hh : 0 < h) :
    ∃ grid, ImagePartition_eval img w h = .ok grid ∧
      (∀ row ∈ grid, row ≠ []) ∧
      ((img.pixels.headD []).length / w.toNat = 0 → grid = []) := by
  refine ⟨ImagePartition_grid img w.toNat h.toNat, ?_, ?_, ?_⟩
  · rw [ImagePartition_eval, if_neg (by push_neg; exact ⟨hw, hh⟩)]
  · intro row hrow
    have h1 := List.mem_filter.mp hrow
    have h2 := h1.2
    simpa using h2
  · intro hcols
    apply List.filter_eq_nil_iff.mpr
    intro row hrow
    rcases List.mem_map.mp hrow with ⟨yi, _, hmap⟩
    subst hmap
    rw [hcols]
    simp

/-- C10 witness: a 2×1 buffer with tile size 2×1 has `cols = 0` while two
tile-rows would fit; the grid is empty. -/
theorem imagePartition_no_empty_rows_witness :
    (0:Int) < 2 ∧ (0:Int) < 1 ∧
      ∃ grid,
        ImagePartition_eval (Image.mk [[[0]], [[0]]] "RGB") 2 1 = .ok grid ∧
          (∀ row ∈ grid, row ≠ []) ∧
          (((Image.mk [[[0]], [[0]]] "RGB").pixels.headD []).length /
              (2:Int).toNat = 0 → grid = []) :=
  ⟨by norm_num, by norm_num,
    imagePartition_no_empty_rows (Image.mk [[[0]], [[0]]] "RGB") 2 1
      (by norm_num) (by norm_num)⟩

/-- Dimensions and pixel provenance of one tile slice: when the requested
block `[i·th, (i+1)·th) × [j·tw, (j+1)·tw)` fits inside a dense
`height × width` array, the slice has exactly `th` rows of `tw` pixels and
its pixel `(r, c)` is the source pixel `(i·th + r, j·tw + c)`. -/
theorem sliceIm_spec (pixels : List (List Pixel)) (width i j th tw : Nat)
    (hrows : ∀ row ∈ pixels, row.length = width)
    (hth : (i + 1) * th ≤ pixels.length) (htw : (j + 1) * tw ≤ width) :
    (sliceIm pixels (i * th) ((i + 1) * th) (j * tw) ((j + 1) * tw)).length
        = th ∧
      (∀ r ∈ sliceIm pixels (i * th) ((i + 1) * th) (j * tw) ((j + 1) * tw),
        r.length = tw) ∧
      ∀ r < th, ∀ c < tw,
        ((sliceIm pixels (i * th) ((i + 1) * th) (j * tw)
            ((j + 1) * tw)).getD r []).getD c []
          = (pixels.getD (i * th + r) []).getD (j * tw + c) [] := by
  have hsub₁ : (i + 1) * th - i * th = th := by
    rw [Nat.succ_mul]; omega
  have hsub₂ : (j + 1) * tw - j * tw = tw := by
    rw [Nat.succ_mul]; omega
  have hfit₁ : i * th + th ≤ pixels.length := by
    rw [Nat.succ_mul] at hth; omega
  refine ⟨?_, ?_, ?_⟩
  · rw [sliceIm, List.length_map, List.length_take, List.length_drop, hsub₁]
    omega
  · intro r hr
    rw [sliceIm] at hr
    rcases List.mem_map.mp hr with ⟨row, hrow, hmap⟩
    have hmem : row ∈ pixels :=
      List.mem_of_mem_drop (List.mem_of_mem_take hrow)
    have hlen : row.length = width := hrows row hmem
    subst hmap
    rw [List.length_take, List.length_drop, hsub₂, hlen]
    rw [Nat.succ_mul] at htw
    omega
  · intro r hr c hc
    have hidx : i * th + r < pixels.length := by omega
    rw [sliceIm]
    simp only [List.getD_eq_getElem?_getD]
    rw [List.getElem?_map,
      List.getElem?_take, if_pos (by omega : r < (i + 1) * th - i * th),
      List.getElem?_drop, List.getElem?_eq_getElem hidx, Option.map_some',
      Option.getD_some,
      List.getElem?_take, if_pos (by omega : c < (j + 1) * tw - j * tw),
      List.getElem?_drop, Option.getD_some]

/-- Abbreviations relating the shape accessors to the raw pixel list. -/
theorem Image.width_def (img : Image) :
    (img.pixels.headD []).length = img.width := rfl

/-- C1 counterexample: a well-formed 2×1 buffer partitioned with
`tileWidth = 2, tileHeight = 1` has `rows = height // tileHeight = 2`, yet
the call returns the empty grid — not two row-sequences as the claim
demands (each row, being empty, is dropped by `if row:`). -/
theorem imagePartition_grid_shape_cex :
    (Image.mk [[[0]], [[0]]] "RGB").WF ∧
      (Image.mk [[[0]], [[0]]] "RGB").height / (1 : Int).toNat = 2 ∧
      ImagePartition_eval (Image.mk [[[0]], [[0]]] "RGB") 2 1 = .ok [] ∧
      ([] : List (List Image)).length ≠ 2 := by
  exact ⟨by decide, rfl, rfl, by simp⟩

/-- C1 (amended): for a well-formed buffer and positive tile sizes, with
`rows = height // tileHeight` and `cols = width // tileWidth`, the call
succeeds; if `cols = 0` the grid is empty, and if `cols > 0` the grid has
exactly `rows` row-sequences of exactly `cols` tiles each, tile `(i, j)`
carrying the source color space and being exactly the sub-buffer spanning
source rows `[i·tileHeight, (i+1)·tileHeight)` and columns
`[j·tileWidth, (j+1)·tileWidth)`. -/
theorem imagePartition_grid_shape (img : Image) (w h : Int)
    (hwf : img.WF) (hw : 0 < w) (hh : 0 < h) :
    ∃ grid, ImagePartition_eval img w h = .ok grid ∧
      (img.width / w.toNat = 0 → grid = []) ∧
      (0 < img.width / w.toNat →
        grid.length = img.height / h.toNat ∧
        ∀ i < img.height / h.toNat, ∃ rowSeq, grid[i]? = some rowSeq ∧
          rowSeq.length = img.width / w.toNat ∧
          ∀ j < img.width / w.toNat, ∃ tile, rowSeq[j]? = some tile ∧
            tile.color_space = img.color_space ∧
            tile.height = h.toNat ∧
            (∀ r ∈ tile.pixels, r.length = w.toNat) ∧
            ∀ r < h.toNat, ∀ c < w.toNat,
              pixAt tile r c =
                pixAt img (i * h.toNat + r) (j * w.toNat + c)) := by
  obtain ⟨hh0, hw0, hc0, hrows, hpx⟩ := hwf
  have hth : 0 < h.toNat := by omega
  have htw : 0 < w.toNat := by omega
  refine ⟨ImagePartition_grid img w.toNat h.toNat, ?_, ?_, ?_⟩
  · rw [ImagePartition_eval, if_neg (by push_neg; exact ⟨hw, hh⟩)]
  · intro hcols
    apply List.filter_eq_nil_iff.mpr
    intro row hrow
    rcases List.mem_map.mp hrow with ⟨yi, _, hmap⟩
    subst hmap
    rw [Image.width_def, hcols]
    simp
  · intro hcols
    have hfilter :
        ImagePartition_grid img w.toNat h.toNat =
          (List.range (img.pixels.length / h.toNat)).map fun yi =>
            (List.range ((img.pixels.headD []).length / w.toNat)).map
              fun xi =>
                Image.mk
                  (sliceIm img.pixels (yi * h.toNat) ((yi + 1) * h.toNat)
                    (xi * w.toNat) ((xi + 1) * w.toNat))
                  img.color_space := by
      rw [ImagePartition_grid]
      apply List.filter_eq_self.mpr
      intro row hrow
      rcases List.mem_map.mp hrow with ⟨yi, _, hmap⟩
      subst hmap
      rw [Image.width_def]
      simp only [Bool.not_eq_eq_eq_not, Bool.not_true, List.isEmpty_eq_false,
        ne_eq, List.map_eq_nil_iff, List.range_eq_nil]
      omega
    refine ⟨?_, ?_⟩
    · rw [hfilter]
      simp [Image.height]
    · intro i hi
      rw [Image.height] at hi
      refine ⟨(List.range ((img.pixels.headD []).length / w.toNat)).map
          fun xi =>
            Image.mk
              (sliceIm img.pixels (i * h.toNat) ((i + 1) * h.toNat)
                (xi * w.toNat) ((xi + 1) * w.toNat))
              img.color_space, ?_, ?_, ?_⟩
      · rw [hfilter, List.getElem?_map, List.getElem?_range hi,
          Option.map_some']
      · rw [Image.width_def]
        simp
      · intro j hj
        rw [← Image.width_def] at hj
        refine ⟨Image.mk
            (sliceIm img.pixels (i * h.toNat) ((i + 1) * h.toNat)
              (j * w.toNat) ((j + 1) * w.toNat))
            img.color_space, ?_, rfl, ?_, ?_, ?_⟩
        · rw [List.getElem?_map, List.getElem?_range hj, Option.map_some']
        · have hfit : (i + 1) * h.toNat ≤ img.pixels.length :=
            (Nat.le_div_iff_mul_le hth).mp hi
          have := sliceIm_spec img.pixels img.width i j h.toNat w.toNat
            hrows hfit ((Nat.le_div_iff_mul_le htw).mp hj)
          exact this.1
        · have hfit : (i + 1) * h.toNat ≤ img.pixels.length :=
            (Nat.le_div_iff_mul_le hth).mp hi
          have := sliceIm_spec img.pixels img.width i j h.toNat w.toNat
            hrows hfit ((Nat.le_div_iff_mul_le htw).mp hj)
          exact this.2.1
        · intro r hr c hc
          have hfit : (i + 1) * h.toNat ≤ img.pixels.length :=
            (Nat.le_div_iff_mul_le hth).mp hi
          have := sliceIm_spec img.pixels img.width i j h.toNat w.toNat
            hrows hfit ((Nat.le_div_iff_mul_le htw).mp hj)
          exact this.2.2 r hr c hc

/-- C1 witness: the spec's tiling-exactness example scaled down — a 4×4
buffer with tile size 2 yields a 2×2 grid of 2×2 tiles in row-major
order. -/
theorem imagePartition_grid_shape_witness :
    (Image.mk [[[0], [1]], [[2], [3]], [[4], [5]], [[6], [7]]] "G").WF ∧
      (0 : Int) < 1 ∧ (0 : Int) < 2 ∧
      ∃ grid,
        ImagePartition_eval
            (Image.mk [[[0], [1]], [[2], [3]], [[4], [5]], [[6], [7]]] "G")
            1 2 = .ok grid ∧
          ((Image.mk [[[0], [1]], [[2], [3]], [[4], [5]], [[6], [7]]]
                "G").width / (1 : Int).toNat = 0 → grid = []) ∧
          (0 < (Image.mk [[[0], [1]], [[2], [3]], [[4], [5]], [[6], [7]]]
                "G").width / (1 : Int).toNat →
            grid.length =
              (Image.mk [[[0], [1]], [[2], [3]], [[4], [5]], [[6], [7]]]
                  "G").height / (2 : Int).toNat ∧
            ∀ i < (Image.mk [[[0], [1]], [[2], [3]], [[4], [5]], [[6], [7]]]
                "G").height / (2 : Int).toNat,
              ∃ rowSeq, grid[i]? = some rowSeq ∧
                rowSeq.length =
                  (Image.mk [[[0], [1]], [[2], [3]], [[4], [5]], [[6], [7]]]
                      "G").width / (1 : Int).toNat ∧
                ∀ j < (Image.mk [[[0], [1]], [[2], [3]], [[4], [5]],
                    [[6], [7]]] "G").width / (1 : Int).toNat,
                  ∃ tile, rowSeq[j]? = some tile ∧
                    tile.color_space =
                      (Image.mk [[[0], [1]], [[2], [3]], [[4], [5]],
                          [[6], [7]]] "G").color_space ∧
                    tile.height = (2 : Int).toNat ∧
                    (∀ r ∈ tile.pixels, r.length = (1 : Int).toNat) ∧
                    ∀ r < (2 : Int).toNat, ∀ c < (1 : Int).toNat,
                      pixAt tile r c =
                        pixAt (Image.mk [[[0], [1]], [[2], [3]], [[4], [5]],
                            [[6], [7]]] "G")
                          (i * (2 : Int).toNat + r)
                          (j * (1 : Int).toNat + c)) := by
  refine ⟨?_, by norm_num, by norm_num, ?_⟩
  · refine ⟨by simp [Image.height], by simp [Image.width],
      by simp [Image.channels], ?_, ?_⟩ <;>
      · intro row hrow
        simp [Image.width, Image.channels] at hrow ⊢
        rcases hrow with h | h | h | h <;> simp [h]
  · exact imagePartition_grid_shape
      (Image.mk [[[0], [1]], [[2], [3]], [[4], [5]], [[6], [7]]] "G") 1 2
      (by decide) (by norm_num) (by norm_num)

/-- The channel-`k` column of the flattened pixel array, in row-major
order: the set of samples numpy's axis-`(0, 1)` reductions range over. -/
def channelVals (pixels : List (List Pixel)) (k : Nat) : List ℚ :=
  pixels.flatten.map fun px => px.getD k 0

/-- numpy `.min()` of a collection of samples (on the empty collection,
which a well-formed buffer never yields, an irrelevant default). -/
def arrMin : List ℚ → ℚ
  | [] => 0
  | x :: xs => xs.foldl min x

/-- numpy `.max()` of a collection of samples. -/
def arrMax : List ℚ → ℚ
  | [] => 0
  | x :: xs => xs.foldl max x

/-- `pixels.min(axis=(0, 1))` at channel `k`: the per-channel `cmins`. -/
def cminOf (img : Image) (k : Nat) : ℚ := arrMin (channelVals img.pixels k)

/-- `pixels.max(axis=(0, 1))` at channel `k`: the per-channel `cmaxs`. -/
def cmaxOf (img : Image) (k : Nat) : ℚ := arrMax (channelVals img.pixels k)

/-- `scales = cmaxs - cmins` followed by `scales[scales == 0.0] = 1`. -/
def scaleOf (img : Image) (k : Nat) : ℚ :=
  if cmaxOf img k - cminOf img k = 0 then 1
  else cmaxOf img k - cminOf img k

/-- The broadcast update `pixels -= cmins; pixels /= scales` restricted to
one pixel, whose channel axis starts at index `k`. -/
def adjustPixel (cmins scales : Nat → ℚ) : Nat → Pixel → Pixel
  | _, [] => []
  | k, v :: vs =>
    (v - cmins k) / scales k :: adjustPixel cmins scales (k + 1) vs

/-- `ImageAdjust.eval_auto`: per-channel limits, `scale` forced to 1 on
constant channels, every sample normalised to `(value - cmin) / scale`;
the color space is carried through. -/
def ImageAdjust_eval_auto (img : Image) : Image :=
  Image.mk
    (img.pixels.map fun row =>
      row.map (adjustPixel (cminOf img) (scaleOf img) 0))
    img.color_space

theorem foldl_min_choice (xs : List ℚ) :
    ∀ a : ℚ, xs.foldl min a = a ∨ xs.foldl min a ∈ xs := by
  induction xs with
  | nil => intro a; exact Or.inl rfl
  | cons y ys ih =>
    intro a
    rcases ih (min a y) with h | h
    · rcases min_choice a y with hm | hm
      · exact Or.inl (by rw [List.foldl_cons, h, hm])
      · exact Or.inr (by rw [List.foldl_cons, h, hm]; exact List.mem_cons_self y ys)
    · exact Or.inr (List.mem_cons_of_mem y h)

theorem foldl_min_le (xs : List ℚ) :
    ∀ a : ℚ, xs.foldl min a ≤ a ∧ ∀ x ∈ xs, xs.foldl min a ≤ x := by
  induction xs with
  | nil => intro a; exact ⟨le_refl a, by intro x hx; cases hx⟩
  | cons y ys ih =>
    intro a
    obtain ⟨h1, h2⟩ := ih (min a y)
    simp only [List.foldl_cons]
    refine ⟨le_trans h1 (min_le_left a y), ?_⟩
    intro x hx
    rcases List.mem_cons.mp hx with rfl | hx
    · exact le_trans h1 (min_le_right a x)
    · exact h2 x hx

theorem arrMin_mem {l : List ℚ} (h : l ≠ []) : arrMin l ∈ l := by
  cases l with
  | nil => exact absurd rfl h
  | cons x xs =>
    show xs.foldl min x ∈ x :: xs
    rcases foldl_min_choice xs x with h' | h'
    · rw [h']; exact List.mem_cons_self x xs
    · exact List.mem_cons_of_mem x h'

theorem arrMin_le {l : List ℚ} {x : ℚ} (hx : x ∈ l) : arrMin l ≤ x := by
  cases l with
  | nil => cases hx
  | cons y ys =>
    rcases List.mem_cons.mp hx with h | h
    · exact h ▸ (foldl_min_le ys y).1
    · exact (foldl_min_le ys y).2 x h

theorem arrMin_eq {l : List ℚ} {m : ℚ} (hm : m ∈ l)
    (hlb : ∀ x ∈ l, m ≤ x) : arrMin l = m :=
  le_antisymm (arrMin_le hm) (hlb _ (arrMin_mem (by rintro rfl; cases hm)))

theorem foldl_max_choice (xs : List ℚ) :
    ∀ a : ℚ, xs.foldl max a = a ∨ xs.foldl max a ∈ xs := by
  induction xs with
  | nil => intro a; exact Or.inl rfl
  | cons y ys ih =>
    intro a
    rcases ih (max a y) with h | h
    · rcases max_choice a y with hm | hm
      · exact Or.inl (by rw [List.foldl_cons, h, hm])
      · exact Or.inr (by rw [List.foldl_cons, h, hm]; exact List.mem_cons_self y ys)
    · exact Or.inr (List.mem_cons_of_mem y h)

theorem foldl_le_max (xs : List ℚ) :
    ∀ a : ℚ, a ≤ xs.foldl max a ∧ ∀ x ∈ xs, x ≤ xs.foldl max a := by
  induction xs with
  | nil => intro a; exact ⟨le_refl a, by intro x hx; cases hx⟩
  | cons y ys ih =>
    intro a
    obtain ⟨h1, h2⟩ := ih (max a y)
    simp only [List.foldl_cons]
    refine ⟨le_trans (le_max_left a y) h1, ?_⟩
    intro x hx
    rcases List.mem_cons.mp hx with rfl | hx
    · exact le_trans (le_max_right a x) h1
    · exact h2 x hx

theorem arrMax_mem {l : List ℚ} (h : l ≠ []) : arrMax l ∈ l := by
  cases l with
  | nil => exact absurd rfl h
  | cons x xs =>
    show xs.foldl max x ∈ x :: xs
    rcases foldl_max_choice xs x with h' | h'
    · rw [h']; exact List.mem_cons_self x xs
    · exact List.mem_cons_of_mem x h'

theorem le_arrMax {l : List ℚ} {x : ℚ} (hx : x ∈ l) : x ≤ arrMax l := by
  cases l with
  | nil => cases hx
  | cons y ys =>
    rcases List.mem_cons.mp hx with h | h
    · exact h ▸ (foldl_le_max ys y).1
    · exact (foldl_le_max ys y).2 x h

theorem arrMax_eq {l : List ℚ} {m : ℚ} (hm : m ∈ l)
    (hub : ∀ x ∈ l, x ≤ m) : arrMax l = m :=
  le_antisymm (hub _ (arrMax_mem (by rintro rfl; cases hm))) (le_arrMax hm)

theorem arrMin_map {l : List ℚ} {f : ℚ → ℚ} (hl : l ≠ [])
    (hf : ∀ a b, a ≤ b → f a ≤ f b) : arrMin (l.map f) = f (arrMin l) := by
  apply arrMin_eq (List.mem_map_of_mem f (arrMin_mem hl))
  intro y hy
  rcases List.mem_map.mp hy with ⟨x, hx, rfl⟩
  exact hf _ _ (arrMin_le hx)

theorem arrMax_map {l : List ℚ} {f : ℚ → ℚ} (hl : l ≠ [])
    (hf : ∀ a b, a ≤ b → f a ≤ f b) : arrMax (l.map f) = f (arrMax l) := by
  apply arrMax_eq (List.mem_map_of_mem f (arrMax_mem hl))
  intro y hy
  rcases List.mem_map.mp hy with ⟨x, hx, rfl⟩
  exact hf _ _ (le_arrMax hx)

theorem adjustPixel_length (c s : Nat → ℚ) :
    ∀ (j : Nat) (px : Pixel), (adjustPixel c s j px).length = px.length := by
  intro j px
  induction px generalizing j with
  | nil => rfl
  | cons v vs ih => simp [adjustPixel, ih]

theorem adjustPixel_getD (c s : Nat → ℚ) :
    ∀ (px : Pixel) (j k : Nat), k < px.length →
      (adjustPixel c s j px).getD k 0 =
        (px.getD k 0 - c (j + k)) / s (j + k) := by
  intro px
  induction px with
  | nil => intro j k h; cases h
  | cons v vs ih =>
    intro j k hk
    cases k with
    | zero => simp [adjustPixel]
    | succ k' =>
      have hk' : k' < vs.length := by simpa using hk
      have harg : j + 1 + k' = j + (k' + 1) := by omega
      simp only [adjustPixel, List.getD_cons_succ]
      rw [ih (j + 1) k' hk', harg]

theorem adjustPixel_id (c s : Nat → ℚ) :
    ∀ (px : Pixel) (j : Nat),
      (∀ k < px.length, c (j + k) = 0 ∧ s (j + k) = 1) →
      adjustPixel c s j px = px := by
  intro px
  induction px with
  | nil => intro j _; rfl
  | cons v vs ih =>
    intro j h
    have hc : c j = 0 := by simpa using (h 0 (by simp)).1
    have hs : s j = 1 := by simpa using (h 0 (by simp)).2
    rw [adjustPixel, hc, hs, sub_zero, div_one, ih (j + 1) ?_]
    intro k hk
    have harg : j + (k + 1) = j + 1 + k := by omega
    have := h (k + 1) (by simpa using Nat.succ_lt_succ hk)
    rw [harg] at this
    exact this

theorem channelVals_eval_auto (img : Image) (hwf : img.WF) (k : Nat)
    (hk : k < img.channels) :
    channelVals (ImageAdjust_eval_auto img).pixels k =
      (channelVals img.pixels k).map
        fun v => (v - cminOf img k) / scaleOf img k := by
  obtain ⟨_, _, _, _, hpx⟩ := hwf
  show channelVals
      (img.pixels.map fun row =>
        row.map (adjustPixel (cminOf img) (scaleOf img) 0)) k = _
  unfold channelVals
  rw [← List.map_flatten, List.map_map, List.map_map]
  apply List.map_congr_left
  intro px hmem
  rcases List.mem_flatten.mp hmem with ⟨row, hrow, hpxrow⟩
  have hlen : px.length = img.channels := hpx row hrow px hpxrow
  show (adjustPixel (cminOf img) (scaleOf img) 0 px).getD k 0 = _
  rw [adjustPixel_getD (cminOf img) (scaleOf img) px 0 k (hlen ▸ hk)]
  simp

theorem channelVals_ne_nil (img : Image) (hwf : img.WF) (k : Nat) :
    channelVals img.pixels k ≠ [] := by
  obtain ⟨hh0, hw0, _, hrows, _⟩ := hwf
  unfold channelVals
  simp only [ne_eq, List.map_eq_nil_iff]
  intro hfl
  rw [List.flatten_eq_nil_iff] at hfl
  cases hpixels : img.pixels with
  | nil =>
    rw [Image.height, hpixels] at hh0
    simp at hh0
  | cons r rs =>
    have hr : r ∈ img.pixels := by rw [hpixels]; exact List.mem_cons_self r rs
    have hrlen : r.length = img.width := hrows r hr
    have hrnil : r = [] := hfl r (by rw [hpixels]; exact List.mem_cons_self r rs)
    rw [hrnil] at hrlen
    simp at hrlen
    omega

theorem cmin_le_cmax (img : Image) (hwf : img.WF) (k : Nat) :
    cminOf img k ≤ cmaxOf img k :=
  arrMin_le (arrMax_mem (channelVals_ne_nil img hwf k))

/-- C2: auto-adjust keeps the color space, rescales every channel sample
to `(value - cmin) / scale` (`scale` forced to 1 on constant channels),
lands every non-degenerate channel in `[0, 1]`, and sends every constant
channel to identically 0; being a total function it never fails. -/
theorem imageAdjust_auto_normalizes (img : Image) (hwf : img.WF) :
    (ImageAdjust_eval_auto img).color_space = img.color_space ∧
      (∀ (k : Nat), k < img.channels →
        channelVals (ImageAdjust_eval_auto img).pixels k =
          (channelVals img.pixels k).map
            fun v => (v - cminOf img k) / scaleOf img k) ∧
      (∀ (k : Nat), k < img.channels → cminOf img k ≠ cmaxOf img k →
        ∀ v ∈ channelVals (ImageAdjust_eval_auto img).pixels k,
          0 ≤ v ∧ v ≤ 1) ∧
      (∀ (k : Nat), k < img.channels → cminOf img k = cmaxOf img k →
        ∀ v ∈ channelVals (ImageAdjust_eval_auto img).pixels k, v = 0) := by
  refine ⟨rfl, channelVals_eval_auto img hwf, ?_, ?_⟩
  · intro k hk hne v hv
    rw [channelVals_eval_auto img hwf k hk] at hv
    rcases List.mem_map.mp hv with ⟨u, hu, rfl⟩
    have hmin : cminOf img k ≤ u := arrMin_le hu
    have hmax : u ≤ cmaxOf img k := le_arrMax hu
    have hlt : cminOf img k < cmaxOf img k :=
      lt_of_le_of_ne (cmin_le_cmax img hwf k) hne
    have hscale : scaleOf img k = cmaxOf img k - cminOf img k := by
      rw [scaleOf, if_neg (sub_ne_zero.mpr hne.symm)]
    constructor
    · rw [hscale]
      exact div_nonneg (by linarith) (by linarith)
    · rw [hscale, div_le_one (by linarith)]
      linarith
  · intro k hk heq v hv
    rw [channelVals_eval_auto img hwf k hk] at hv
    rcases List.mem_map.mp hv with ⟨u, hu, rfl⟩
    have hmin : cminOf img k ≤ u := arrMin_le hu
    have hmax : u ≤ cmaxOf img k := le_arrMax hu
    have hu_eq : u = cminOf img k := le_antisymm (heq ▸ hmax) hmin
    rw [hu_eq]
    simp

/-- C2 witness: a 1×2 two-channel buffer whose first channel is
`{0, 2}` (non-degenerate) and second channel constant `5`. -/
theorem imageAdjust_auto_normalizes_witness :
    (Image.mk [[[0, 5], [2, 5]]] "RGB").WF ∧
      ((ImageAdjust_eval_auto (Image.mk [[[0, 5], [2, 5]]] "RGB")).color_space
          = (Image.mk [[[0, 5], [2, 5]]] "RGB").color_space ∧
        (∀ (k : Nat), k < (Image.mk [[[0, 5], [2, 5]]] "RGB").channels →
          channelVals
              (ImageAdjust_eval_auto
                (Image.mk [[[0, 5], [2, 5]]] "RGB")).pixels k =
            (channelVals (Image.mk [[[0, 5], [2, 5]]] "RGB").pixels k).map
              fun v =>
                (v - cminOf (Image.mk [[[0, 5], [2, 5]]] "RGB") k) /
                  scaleOf (Image.mk [[[0, 5], [2, 5]]] "RGB") k) ∧
        (∀ (k : Nat), k < (Image.mk [[[0, 5], [2, 5]]] "RGB").channels →
          cminOf (Image.mk [[[0, 5], [2, 5]]] "RGB") k ≠
              cmaxOf (Image.mk [[[0, 5], [2, 5]]] "RGB") k →
          ∀ v ∈ channelVals
              (ImageAdjust_eval_auto
                (Image.mk [[[0, 5], [2, 5]]] "RGB")).pixels k,
            0 ≤ v ∧ v ≤ 1) ∧
        (∀ (k : Nat), k < (Image.mk [[[0, 5], [2, 5]]] "RGB").channels →
          cminOf (Image.mk [[[0, 5], [2, 5]]] "RGB") k =
              cmaxOf (Image.mk [[[0, 5], [2, 5]]] "RGB") k →
          ∀ v ∈ channelVals
              (ImageAdjust_eval_auto
                (Image.mk [[[0, 5], [2, 5]]] "RGB")).pixels k,
            v = 0)) :=
  ⟨by decide, imageAdjust_auto_normalizes (Image.mk [[[0, 5], [2, 5]]] "RGB")
    (by decide)⟩

theorem eval_auto_limits (img : Image) (hwf : img.WF) (k : Nat)
    (hk : k < img.channels) (hne : cminOf img k ≠ cmaxOf img k) :
    cminOf (ImageAdjust_eval_auto img) k = 0 ∧
      cmaxOf (ImageAdjust_eval_auto img) k = 1 := by
  have hlt : cminOf img k < cmaxOf img k :=
    lt_of_le_of_ne (cmin_le_cmax img hwf k) hne
  have hscale : scaleOf img k = cmaxOf img k - cminOf img k := by
    rw [scaleOf, if_neg (sub_ne_zero.mpr hne.symm)]
  have hspos : 0 < scaleOf img k := by rw [hscale]; linarith
  have hmono : ∀ a b : ℚ, a ≤ b →
      (a - cminOf img k) / scaleOf img k ≤
        (b - cminOf img k) / scaleOf img k := by
    intro a b hab
    rw [div_eq_mul_inv, div_eq_mul_inv]
    exact mul_le_mul_of_nonneg_right (sub_le_sub_right hab _)
      (inv_nonneg.mpr (le_of_lt hspos))
  have hne_nil := channelVals_ne_nil img hwf k
  constructor
  · rw [cminOf, channelVals_eval_auto img hwf k hk,
      arrMin_map hne_nil hmono]
    show (cminOf img k - cminOf img k) / scaleOf img k = 0
    rw [sub_self, zero_div]
  · rw [cmaxOf, channelVals_eval_auto img hwf k hk,
      arrMax_map hne_nil hmono]
    show (cmaxOf img k - cminOf img k) / scaleOf img k = 1
    rw [hscale, div_self (by linarith)]

/-- C5: on a buffer with no constant channel, one pass of auto-adjust
yields per-channel minimum 0 and maximum 1, and a second pass returns its
input unchanged — the first pass reaches a fixed point. -/
theorem imageAdjust_auto_fixed_point (img : Image) (hwf : img.WF)
    (hnc : ∀ k < img.channels, cminOf img k ≠ cmaxOf img k) :
    (∀ k < img.channels,
      cminOf (ImageAdjust_eval_auto img) k = 0 ∧
        cmaxOf (ImageAdjust_eval_auto img) k = 1) ∧
      ImageAdjust_eval_auto (ImageAdjust_eval_auto img) =
        ImageAdjust_eval_auto img := by
  have hpx := hwf.2.2.2.2
  refine ⟨fun k hk => eval_auto_limits img hwf k hk (hnc k hk), ?_⟩
  have hlimits : ∀ k < img.channels,
      cminOf (ImageAdjust_eval_auto img) k = 0 ∧
        scaleOf (ImageAdjust_eval_auto img) k = 1 := by
    intro k hk
    obtain ⟨h0, h1⟩ := eval_auto_limits img hwf k hk (hnc k hk)
    refine ⟨h0, ?_⟩
    rw [scaleOf, h0, h1]
    norm_num
  have hpixels :
      (ImageAdjust_eval_auto img).pixels.map (fun row =>
          row.map
            (adjustPixel (cminOf (ImageAdjust_eval_auto img))
              (scaleOf (ImageAdjust_eval_auto img)) 0)) =
        (ImageAdjust_eval_auto img).pixels := by
    have hid : ∀ row ∈ (ImageAdjust_eval_auto img).pixels,
        row.map
            (adjustPixel (cminOf (ImageAdjust_eval_auto img))
              (scaleOf (ImageAdjust_eval_auto img)) 0) = row := by
      intro row hrow
      rcases List.mem_map.mp hrow with ⟨row₀, hrow₀, rfl⟩
      rw [List.map_map]
      have hpxid : ∀ px ∈ row₀,
          (adjustPixel (cminOf (ImageAdjust_eval_auto img))
                (scaleOf (ImageAdjust_eval_auto img)) 0 ∘
              adjustPixel (cminOf img) (scaleOf img) 0) px =
            adjustPixel (cminOf img) (scaleOf img) 0 px := by
        intro px hpxmem
        have hlen : px.length = img.channels := hpx row₀ hrow₀ px hpxmem
        show adjustPixel _ _ 0 (adjustPixel (cminOf img) (scaleOf img) 0 px)
            = adjustPixel (cminOf img) (scaleOf img) 0 px
        apply adjustPixel_id
        intro k hk
        have hk' : k < img.channels := by
          rw [adjustPixel_length, hlen] at hk
          exact hk
        obtain ⟨h0, h1⟩ := hlimits k hk'
        rw [Nat.zero_add]
        exact ⟨h0, h1⟩
      rw [List.map_congr_left hpxid]
    calc (ImageAdjust_eval_auto img).pixels.map (fun row =>
            row.map
              (adjustPixel (cminOf (ImageAdjust_eval_auto img))
                (scaleOf (ImageAdjust_eval_auto img)) 0))
        = (ImageAdjust_eval_auto img).pixels.map id := List.map_congr_left hid
      _ = (ImageAdjust_eval_auto img).pixels := List.map_id _
  show Image.mk _ _ = _
  rw [hpixels]

/-- C5 witness: the 1×2 single-channel buffer `{0, 2}` has its only
channel non-constant; one pass normalises it to `{0, 1}` and a second
pass is the identity. -/
theorem imageAdjust_auto_fixed_point_witness :
    (Image.mk [[[0], [2]]] "G").WF ∧
      (∀ k < (Image.mk [[[0], [2]]] "G").channels,
        cminOf (Image.mk [[[0], [2]]] "G") k ≠
          cmaxOf (Image.mk [[[0], [2]]] "G") k) ∧
      ((∀ k < (Image.mk [[[0], [2]]] "G").channels,
        cminOf (ImageAdjust_eval_auto (Image.mk [[[0], [2]]] "G")) k = 0 ∧
          cmaxOf (ImageAdjust_eval_auto (Image.mk [[[0], [2]]] "G")) k = 1) ∧
        ImageAdjust_eval_auto
            (ImageAdjust_eval_auto (Image.mk [[[0], [2]]] "G")) =
          ImageAdjust_eval_auto (Image.mk [[[0], [2]]] "G")) :=
  ⟨by decide, by decide,
    imageAdjust_auto_fixed_point (Image.mk [[[0], [2]]] "G") (by decide)
      (by decide)⟩

/-- `ImageAdjust.eval_contrast_brightness_gamma`: the working image is the
PIL view of the buffer, then the gamma step (the source calls
`PIL.ImageEnhance.Color(im).enhance(g)` under its `# gamma` comment, kept
abstract here as `colorE`), the brightness step (`enhance(b + 1)`), the
contrast step (`enhance(c + 1)`), each guarded by its identity test; the
result takes the processed pixels and the original color space.  Modelled
from the spec: the per-channel enhancement primitives of section 6 are
abstract collaborators, and the `image.pil()` / `numpy.array(im)`
round-trip, whose code is outside the visible fragment, preserves the
pixel buffer per the spec's ownership model (section 3). -/
def ImageAdjust_eval_cbg
    (colorE brightE contrastE : Image → ℚ → Image)
    (img : Image) (c b g : ℚ) : Image :=
  let im := img
  let im := if g ≠ 1 then colorE im g else im
  let im := if b ≠ 0 then brightE im (b + 1) else im
  let im := if c ≠ 0 then contrastE im (c + 1) else im
  Image.mk im.pixels img.color_space

/-- The rewrite rule `ImageAdjust[image_Image, c_?RealNumberQ] :=
ImageAdjust[image, {c, 0, 1}]`. -/
def ImageAdjust_rule_contrast
    (colorE brightE contrastE : Image → ℚ → Image)
    (img : Image) (c : ℚ) : Image :=
  ImageAdjust_eval_cbg colorE brightE contrastE img c 0 1

/-- C6: the parametric adjust applies the gamma step first, then
brightness with factor `b + 1`, then contrast with factor `c + 1` (the
composition equation), and each step is skipped exactly at its identity
value: at `g = 1` (resp. `b = 0`, `c = 0`) the result does not depend on
the gamma (resp. brightness, contrast) primitive at all. -/
theorem imageAdjust_cbg_order
    (colorE brightE contrastE : Image → ℚ → Image)
    (img : Image) (c b g : ℚ) :
    (ImageAdjust_eval_cbg colorE brightE contrastE img c b g =
      Image.mk
        ((if c ≠ 0 then (fun i => contrastE i (c + 1)) else id)
          ((if b ≠ 0 then (fun i => brightE i (b + 1)) else id)
            ((if g ≠ 1 then (fun i => colorE i g) else id) img))).pixels
        img.color_space) ∧
      (g = 1 → ∀ colorE' : Image → ℚ → Image,
        ImageAdjust_eval_cbg colorE brightE contrastE img c b g =
          ImageAdjust_eval_cbg colorE' brightE contrastE img c b g) ∧
      (b = 0 → ∀ brightE' : Image → ℚ → Image,
        ImageAdjust_eval_cbg colorE brightE contrastE img c b g =
          ImageAdjust_eval_cbg colorE brightE' contrastE img c b g) ∧
      (c = 0 → ∀ contrastE' : Image → ℚ → Image,
        ImageAdjust_eval_cbg colorE brightE contrastE img c b g =
          ImageAdjust_eval_cbg colorE brightE contrastE' img c b g) := by
  refine ⟨?_, ?_, ?_, ?_⟩
  · by_cases hg : g = 1 <;> by_cases hb : b = 0 <;> by_cases hc : c = 0 <;>
      simp [ImageAdjust_eval_cbg, hg, hb, hc]
  · intro hg colorE'
    subst hg
    simp [ImageAdjust_eval_cbg]
  · intro hb brightE'
    subst hb
    simp [ImageAdjust_eval_cbg]
  · intro hc contrastE'
    subst hc
    simp [ImageAdjust_eval_cbg]

/-- C7: with contrast 0, brightness 0 and gamma 1 every step is skipped
and the parametric adjust returns the input buffer itself. -/
theorem imageAdjust_params_identity
    (colorE brightE contrastE : Image → ℚ → Image) (img : Image) :
    ImageAdjust_eval_cbg colorE brightE contrastE img 0 0 1 = img := by
  simp [ImageAdjust_eval_cbg]

/-- Modelled from the spec: `BoxMatrix[r]` (an external host-language
primitive) — the square kernel of ones whose side is determined by the
radius. -/
def boxMatrix (r : ℚ) : List (List ℚ) :=
  List.replicate (2 * (⌊r⌋).toNat + 1) (List.replicate (2 * (⌊r⌋).toNat + 1) 1)

/-- `BoxMatrix[r] / Total[Flatten[BoxMatrix[r]]]`: pointwise division of
the kernel by the sum of its entries, so that the weights sum to 1. -/
def normalizeKernel (kern : List (List ℚ)) : List (List ℚ) :=
  kern.map fun row => row.map fun x => x / kern.flatten.sum

/-- One clamped sample of the source buffer: boundary pixels are repeated
(the padding policy owned by the convolution primitive). -/
def sampleClamp (img : Image) (y x : Int) (k : Nat) : ℚ :=
  (pixAt img (max 0 (min y ((img.height : Int) - 1))).toNat
      (max 0 (min x ((img.width : Int) - 1))).toNat).getD k 0

/-- A fresh buffer of the source's shape whose sample at
`(y, x, channel k)` is `f y x k`; carries the color space through. -/
def pixelGrid (img : Image) (f : Nat → Nat → Nat → ℚ) : Image :=
  Image.mk
    ((List.range img.height).map fun y =>
      (List.range img.width).map fun x =>
        (List.range img.channels).map fun k => f y x k)
    img.color_space

/-- The convolution sum at one output coordinate, kernel centred there. -/
def convAt (img : Image) (kern : List (List ℚ)) (y x k : Nat) : ℚ :=
  ((List.range kern.length).map fun dy =>
    ((List.range kern.length).map fun dx =>
      (kern.getD dy []).getD dx 0 *
        sampleClamp img ((y : Int) + dy - (kern.length / 2 : Nat))
          ((x : Int) + dx - (kern.length / 2 : Nat)) k).sum).sum

/-- Modelled from the spec: the external 2D convolution primitive
(`ImageConvolve`), which returns a same-shape buffer and owns the
boundary policy (clamping here). -/
def convolve (img : Image) (kern : List (List ℚ)) : Image :=
  pixelGrid img (convAt img kern)

/-- The rewrite rule `Blur[image_Image, r_?RealNumberQ] :=
ImageConvolve[image, BoxMatrix[r] / Total[Flatten[BoxMatrix[r]]]]`. -/
def Blur_eval (img : Image) (r : ℚ) : Image :=
  convolve img (normalizeKernel (boxMatrix r))

/-- The rewrite rule `Blur[image_Image] := Blur[image, 2]`. -/
def Blur_rule_default (img : Image) : Image := Blur_eval img 2

/-- `Sharpen.eval`, which applies `PIL.ImageFilter.UnsharpMask(r)` through
`image.filter`.  Modelled from the spec: the unsharp-mask primitive is
external; it is modelled as original plus the edge mask
(original minus box-blurred), built on the same-shape grid so shape and
color space carry over as the spec's contract states. -/
def Sharpen_eval (img : Image) (r : ℚ) : Image :=
  pixelGrid img fun y x k =>
    2 * (pixAt img y x).getD k 0 - (pixAt (Blur_eval img r) y x).getD k 0

/-- The rewrite rule `Sharpen[i_Image] := Sharpen[i, 2]`. -/
def Sharpen_rule_default (img : Image) : Image := Sharpen_eval img 2

/-- C8: the convenience overloads are definitionally the full calls:
`ImagePartition[i, s]` is `ImagePartition[i, {s, s}]`,
`ImageAdjust[i, c]` is `ImageAdjust[i, {c, 0, 1}]`, and radius-less
`Blur`/`Sharpen` are the radius-2 calls. -/
theorem convenience_overloads
    (colorE brightE contrastE : Image → ℚ → Image)
    (img : Image) (s : Int) (c : ℚ) :
    ImagePartition_rule_square img s = ImagePartition_eval img s s ∧
      ImageAdjust_rule_contrast colorE brightE contrastE img c =
        ImageAdjust_eval_cbg colorE brightE contrastE img c 0 1 ∧
      Blur_rule_default img = Blur_eval img 2 ∧
      Sharpen_rule_default img = Sharpen_eval img 2 :=
  ⟨rfl, rfl, rfl, rfl⟩

theorem headD_map_range {α : Type} (f : Nat → α) (n : Nat) (hn : 0 < n)
    (d : α) : ((List.range n).map f).headD d = f 0 := by
  cases n with
  | zero => omega
  | succ m =>
    rw [List.range_succ_eq_map]
    rfl

theorem pixelGrid_shape (img : Image) (f : Nat → Nat → Nat → ℚ)
    (hh : 0 < img.height) (hw : 0 < img.width) :
    (pixelGrid img f).height = img.height ∧
      (pixelGrid img f).width = img.width ∧
      (pixelGrid img f).channels = img.channels ∧
      (pixelGrid img f).color_space = img.color_space := by
  refine ⟨?_, ?_, ?_, rfl⟩
  · show ((List.range img.height).map _).length = img.height
    simp
  · show (((List.range img.height).map _).headD []).length = img.width
    rw [headD_map_range _ _ hh]
    simp
  · show ((((List.range img.height).map _).headD []).headD []).length
        = img.channels
    rw [headD_map_range _ _ hh, headD_map_range _ _ hw]
    simp

/-- C9: for a well-formed buffer and any radius `r ≥ 0`, blur and sharpen
both return a buffer of the same height, width and channel count and the
same color space as the input. -/
theorem blur_sharpen_shape (img : Image) (r : ℚ) (hwf : img.WF)
    (hr : 0 ≤ r) :
    ((Blur_eval img r).height = img.height ∧
      (Blur_eval img r).width = img.width ∧
      (Blur_eval img r).channels = img.channels ∧
      (Blur_eval img r).color_space = img.color_space) ∧
      ((Sharpen_eval img r).height = img.height ∧
        (Sharpen_eval img r).width = img.width ∧
        (Sharpen_eval img r).channels = img.channels ∧
        (Sharpen_eval img r).color_space = img.color_space) :=
  ⟨pixelGrid_shape img _ hwf.1 hwf.2.1, pixelGrid_shape img _ hwf.1 hwf.2.1⟩

/-- C9 witness: a concrete 1×1 single-channel buffer at radius 0. -/
theorem blur_sharpen_shape_witness :
    (Image.mk [[[3]]] "G").WF ∧ (0:ℚ) ≤ 0 ∧
      (((Blur_eval (Image.mk [[[3]]] "G") 0).height =
            (Image.mk [[[3]]] "G").height ∧
        (Blur_eval (Image.mk [[[3]]] "G") 0).width =
            (Image.mk [[[3]]] "G").width ∧
        (Blur_eval (Image.mk [[[3]]] "G") 0).channels =
            (Image.mk [[[3]]] "G").channels ∧
        (Blur_eval (Image.mk [[[3]]] "G") 0).color_space =
            (Image.mk [[[3]]] "G").color_space) ∧
        ((Sharpen_eval (Image.mk [[[3]]] "G") 0).height =
            (Image.mk [[[3]]] "G").height ∧
          (Sharpen_eval (Image.mk [[[3]]] "G") 0).width =
              (Image.mk [[[3]]] "G").width ∧
          (Sharpen_eval (Image.mk [[[3]]] "G") 0).channels =
              (Image.mk [[[3]]] "G").channels ∧
          (Sharpen_eval (Image.mk [[[3]]] "G") 0).color_space =
              (Image.mk [[[3]]] "G").color_space)) :=
  ⟨by decide, le_refl 0,
    blur_sharpen_shape (Image.mk [[[3]]] "G") 0 (by decide) (le_refl 0)⟩
